import Mathlib

/-!
A shallow embedding of the SVG path-data parser (`path.go` of the `svg`
repository) and proofs about the claims of its specification.

Modelling conventions:
* Go `float64` values are modelled as exact rationals (`ℚ`).  The operand
  strings reaching `strconv.ParseFloat` only ever contain digits, at most one
  dot, a sign, and a power-of-ten exponent, so every accepted operand denotes
  an exact rational; claims about concrete decimal values are interpreted with
  that exact denotation.  `ParseFloat` range errors (overflow to infinity of
  huge exponents) are not modelled — the model accepts a superset of the Go
  successes, which only strengthens the universally-quantified invariants
  proved below about successful parses.
* Fallible Go functions returning `(T, error)` become `Except ParseErr T`.
  Error messages are modelled by the constructors of `ParseErr`, each
  documented with the exact `fmt.Errorf` text it stands for.
* Go `[]*PathCommand` slices inside `Subpaths` may hold `nil` pointers (the
  remembered most-recent move starts out as `nil`); subpath command lists are
  therefore `List (Option PathCommand)`, with `none` standing for Go `nil`.
* For the aliasing claim about `Subpaths`, a second, pointer-level model
  (`subpathsAllocLoop`) tracks allocation explicitly: command objects live in
  a store (`List Cell`) addressed by index, a command's parameter slice is
  abstracted to a storage identifier `paramsRef`, and taking `&PathCommand{…}`
  appends a fresh cell to the store.
-/

namespace Svg

/-- Decidable equality for `Except`, so that concrete parser runs can be
checked by `decide`. -/
instance {ε α : Type} [DecidableEq ε] [DecidableEq α] : DecidableEq (Except ε α) :=
  fun x y =>
    match x, y with
    | .ok a, .ok b =>
      if h : a = b then .isTrue (by rw [h]) else .isFalse fun hh => h (Except.ok.inj hh)
    | .error a, .error b =>
      if h : a = b then .isTrue (by rw [h]) else .isFalse fun hh => h (Except.error.inj hh)
    | .ok _, .error _ => .isFalse fun hh => Except.noConfusion hh
    | .error _, .ok _ => .isFalse fun hh => Except.noConfusion hh

/-- `PathCommand` of path.go lines 12-15: an operator symbol and the list of
numeric parameters (Go `[]float64`, modelled as exact rationals). -/
structure PathCommand where
  Symbol : String
  Params : List ℚ
deriving DecidableEq, Repr

/-- The parameter-comparison loop of `PathCommand.Equal` (path.go lines
28-32): `for i, param := range c.Params { if param != o.Params[i] { return
false } }`.  Indexing `o.Params[i]` past the end is a Go panic, modelled as
`none`; `some b` models a normal return of `b`. -/
def eqLoop : List ℚ → List ℚ → Option Bool
  | [], _ => some true
  | _ :: _, [] => none
  | p :: ps, q :: qs => if p = q then eqLoop ps qs else some false

/-- `PathCommand.Equal` (path.go lines 23-35).  `some b` models a normal
return of `b`; `none` models the out-of-range panic on `o.Params[i]`. -/
def PathCommand.Equal (c o : PathCommand) : Option Bool :=
  if c.Symbol = o.Symbol then eqLoop c.Params o.Params else some false

/-- `Path` of path.go lines 38-40: the ordered command list. -/
structure Path where
  Commands : List PathCommand
deriving DecidableEq, Repr

/-- The command-comparison loop of `Path.Equal` (path.go lines 48-52),
propagating a panic (`none`) from `PathCommand.Equal`. -/
def pathEqLoop : List PathCommand → List PathCommand → Option Bool
  | [], _ => some true
  | _ :: _, [] => none
  | c :: cs, d :: ds =>
    match PathCommand.Equal c d with
    | some true => pathEqLoop cs ds
    | some false => some false
    | none => none

/-- `Path.Equal` (path.go lines 43-55): length check, then the pairwise
command loop. -/
def Path.Equal (p o : Path) : Option Bool :=
  if p.Commands.length = o.Commands.length then pathEqLoop p.Commands o.Commands
  else some false

/-- Go `strings.ToLower`, character by character (the strings compared in
path.go are single ASCII letters or digit runs, on which this agrees with the
library function). -/
def strToLower (s : String) : String :=
  String.mk (s.toList.map Char.toLower)

/-- Go `strings.ToUpper`, character by character. -/
def strToUpper (s : String) : String :=
  String.mk (s.toList.map Char.toUpper)

/-- `IsAbsolute` (path.go lines 18-20). -/
def PathCommand.IsAbsolute (c : PathCommand) : Bool :=
  c.Symbol = strToUpper c.Symbol

/-- Errors of path.go, by the exact `fmt.Errorf` text:
* `lexErr c` — `"Unrecognized symbol '%s'"` (tokenize, line 243);
* `invalidParam` — `"Invalid parameter syntax"` (commands, line 140);
* `unknownCommand s` — `"Invalid command '%s'"` (commands, line 148);
* `arityErr s` — `"Incorrect number of parameters for %v"` (commands, line 159);
* `startErr raw` — `"Path data does not start with a moveto command: %s"`
  (commands, lines 128-129). -/
inductive ParseErr where
  | lexErr (c : Char)
  | invalidParam
  | unknownCommand (symbol : String)
  | arityErr (symbol : String)
  | startErr (raw : String)
deriving DecidableEq, Repr

/-- A token (path.go lines 181-184): the textual value and whether it is an
operator. -/
structure Token where
  value : String
  operator : Bool
deriving DecidableEq, Repr

/-- `tokens.add` (path.go lines 191-199): append a token if the buffered value
is non-empty.  The Go method also reports whether it appended; callers use the
report only to reset the buffer, which the call sites below inline (resetting
an already-empty buffer is the identity). -/
def tokensAdd (ts : List Token) (value : List Char) (op : Bool) : List Token :=
  if value = [] then ts else ts ++ [⟨String.mk value, op⟩]

/-- Go `unicode.IsSpace`: the Unicode White_Space property
(U+0009–U+000D, U+0020, U+0085, U+00A0, U+1680, U+2000–U+200A, U+2028,
U+2029, U+202F, U+205F, U+3000). -/
def isSpaceGo (r : Char) : Bool :=
  (9 ≤ r.toNat && r.toNat ≤ 13) || r.toNat == 32 || r.toNat == 133 ||
  r.toNat == 160 || r.toNat == 5760 || (8192 ≤ r.toNat && r.toNat ≤ 8202) ||
  r.toNat == 8232 || r.toNat == 8233 || r.toNat == 8239 || r.toNat == 8287 ||
  r.toNat == 12288

/-- The scanning loop of `tokenize` (path.go lines 203-249), one case per
branch of the Go `switch` (the `.` case falls through into the digit/`e`
case, so the dot is appended to the possibly reseeded buffer). -/
def tokenizeLoop : List Char → List Token → List Char → Except ParseErr (List Token)
  | [], ts, operand => .ok (tokensAdd ts operand false)
  | r :: rest, ts, operand =>
    if r = '.' then
      let operand1 := if operand = [] then ['0'] else operand
      if operand1.contains '.' then
        tokenizeLoop rest (tokensAdd ts operand1 false) ['0', '.']
      else
        tokenizeLoop rest ts (operand1 ++ ['.'])
    else if ('0' ≤ r ∧ r ≤ '9') ∨ r = 'e' then
      tokenizeLoop rest ts (operand ++ [r])
    else if r = '-' then
      if operand.getLast? = some 'e' then
        tokenizeLoop rest ts (operand ++ [r])
      else
        tokenizeLoop rest (tokensAdd ts operand false) ['-']
    else if ('a' ≤ r ∧ r ≤ 'z') ∨ ('A' ≤ r ∧ r ≤ 'Z') then
      tokenizeLoop rest (tokensAdd (tokensAdd ts operand false) [r] true) []
    else if isSpaceGo r ∨ r = ',' then
      tokenizeLoop rest (tokensAdd ts operand false) []
    else
      .error (.lexErr r)

/-- `tokenize` (path.go lines 203-250). -/
def tokenize (raw : String) : Except ParseErr (List Token) :=
  tokenizeLoop raw.toList [] []

/-- `commandParams` (path.go lines 111-114): symbol → required parameter
count. -/
def commandParams (s : String) : Option ℕ :=
  if s = "m" then some 2
  else if s = "z" then some 0
  else if s = "l" then some 2
  else if s = "h" then some 1
  else if s = "v" then some 1
  else if s = "c" then some 6
  else if s = "s" then some 4
  else if s = "q" then some 4
  else if s = "t" then some 2
  else if s = "a" then some 7
  else none

/-- The value of a digit run, most significant first. -/
def digitsToNat (cs : List Char) : ℕ :=
  cs.foldl (fun a c => 10 * a + (c.toNat - 48)) 0

/-- The exact rational `sign * digits * 10 ^ sexp`, built with integer
arithmetic and a single `mkRat` so that it evaluates by kernel reduction
(`Rat.mul` and friends are irreducible). -/
def decValue (sign : ℤ) (digits : ℕ) (sexp : ℤ) : ℚ :=
  match sexp with
  | .ofNat n => mkRat (sign * (digits : ℤ) * (10 : ℤ) ^ n) 1
  | .negSucc n => mkRat (sign * (digits : ℤ)) ((10 : ℕ) ^ (n + 1))

/-- The exponent part of a decimal floating-point literal: empty means
exponent 0; otherwise `e`/`E`, an optional sign, and at least one digit, with
nothing left over. -/
def expPart : List Char → Option ℤ
  | [] => some 0
  | c :: rest =>
    if c = 'e' ∨ c = 'E' then
      match rest with
      | '-' :: ds =>
        if ds ≠ [] ∧ ds.all Char.isDigit then some (-(digitsToNat ds : ℤ)) else none
      | '+' :: ds =>
        if ds ≠ [] ∧ ds.all Char.isDigit then some (digitsToNat ds : ℤ) else none
      | ds =>
        if ds ≠ [] ∧ ds.all Char.isDigit then some (digitsToNat ds : ℤ) else none
    else none

/-- Go `strconv.ParseFloat(s, 64)` on the decimal literals the tokenizer can
produce: an optional sign, an integer part, an optional dot with a fraction
part (at least one digit overall in the mantissa), and an optional exponent.
The value is the exact rational the literal denotes; range errors are not
modelled (see the file header). -/
def parseFloatQ (s : String) : Option ℚ :=
  let signSplit : ℤ × List Char :=
    match s.toList with
    | '-' :: rest => (-1, rest)
    | '+' :: rest => (1, rest)
    | cs => (1, cs)
  let ip := signSplit.2.takeWhile Char.isDigit
  let rest1 := signSplit.2.dropWhile Char.isDigit
  let fracSplit : List Char × List Char :=
    match rest1 with
    | '.' :: r2 => (r2.takeWhile Char.isDigit, r2.dropWhile Char.isDigit)
    | _ => ([], rest1)
  if ip = [] ∧ fracSplit.1 = [] then none
  else
    match expPart fracSplit.2 with
    | none => none
    | some e =>
      some (decValue signSplit.1 (digitsToNat (ip ++ fracSplit.1))
        (e - (fracSplit.1.length : ℤ)))

/-- The inner `for i := 0; i < loopCount; i++` loop of `commands` (path.go
lines 162-174), counted by the number of remaining iterations: iteration with
`k+1` groups remaining is Go's iteration `i = loopCount-1-k`, so the move→line
rewrite (`i < loopCount-1`) applies exactly when `k ≠ 0`.  Each step takes one
arity-sized group off the front of the pending operands, reverses it into
natural order, and prepends the command. -/
def assembleGroups (value : String) (paramCount : ℕ) :
    ℕ → List ℚ → List PathCommand → List ℚ × List PathCommand
  | 0, operands, cmds => (operands, cmds)
  | k + 1, operands, cmds =>
    let op := if value = "m" ∧ k ≠ 0 then "l"
      else if value = "M" ∧ k ≠ 0 then "L" else value
    assembleGroups value paramCount k (operands.drop paramCount)
      (⟨op, (operands.take paramCount).reverse⟩ :: cmds)

/-- The reverse token scan of `commands` (path.go lines 135-175).  The token
list argument is the reversed token sequence; `operands` is the
pending-operands buffer (Go appends at the end and consumes groups from the
front); `cmds` is the prepend-only output. -/
def commandsLoop : List Token → List ℚ → List PathCommand → Except ParseErr (List PathCommand)
  | [], _, cmds => .ok cmds
  | t :: rest, operands, cmds =>
    if t.operator = false then
      match parseFloatQ t.value with
      | none => .error .invalidParam
      | some n => commandsLoop rest (operands ++ [n]) cmds
    else
      match commandParams (strToLower t.value) with
      | none => .error (.unknownCommand t.value)
      | some paramCount =>
        if paramCount = 0 ∧ operands.length = 0 then
          commandsLoop rest operands (⟨t.value, []⟩ :: cmds)
        else if paramCount = 0 ∨ operands.length % paramCount ≠ 0 then
          .error (.arityErr t.value)
        else
          let r := assembleGroups t.value paramCount (operands.length / paramCount)
            operands cmds
          commandsLoop rest r.1 r.2

/-- `commands` (path.go lines 117-178): tokenize, reject a non-empty token
sequence whose first token is not case-insensitively `m` (the check reads
`tokens[0].value` whether or not it is an operator), then run the reverse
scan. -/
def commands (raw : String) : Except ParseErr (List PathCommand) :=
  match tokenize raw with
  | .error e => .error e
  | .ok ts =>
    match ts with
    | [] => commandsLoop [] [] []
    | t :: _ =>
      if strToLower t.value ≠ "m" then .error (.startErr raw)
      else commandsLoop ts.reverse [] []

/-- `NewPath` (path.go lines 59-66). -/
def NewPath (raw : String) : Except ParseErr Path :=
  match commands raw with
  | .error e => .error e
  | .ok cmds => .ok ⟨cmds⟩

/-- The walk of `Subpaths` (path.go lines 70-102), value-level.  Subpath
entries are `Option PathCommand` because the remembered most-recent move
(`mrs`) is a Go pointer that starts out `nil` and is appended as-is when a
non-move, non-close command arrives while the current segment is empty.  The
move branch records `⟨c.Symbol, c.Params⟩`, mirroring the field-by-field copy
`&PathCommand{Symbol: command.Symbol, Params: command.Params}`. -/
def subpathsLoop : List PathCommand → List (Option PathCommand) →
    Option PathCommand → List (List (Option PathCommand)) →
    List (List (Option PathCommand))
  | [], path, _, subs => if path.length > 0 then subs ++ [path] else subs
  | c :: rest, path, mrs, subs =>
    if strToLower c.Symbol = "m" then
      subpathsLoop rest [some c] (some ⟨c.Symbol, c.Params⟩)
        (if path.length > 0 then subs ++ [path] else subs)
    else if strToLower c.Symbol = "z" then
      subpathsLoop rest [] mrs (subs ++ [path])
    else
      subpathsLoop rest ((if path.length = 0 then [mrs] else path) ++ [some c])
        mrs subs

/-- `Subpaths` (path.go lines 70-102). -/
def Path.Subpaths (p : Path) : List (List (Option PathCommand)) :=
  subpathsLoop p.Commands [] none []

/-- A command object at the pointer level: the symbol and an identifier of the
parameter slice's backing storage (`Params` aliasing is what matters, not the
values). -/
structure Cell where
  Symbol : String
  paramsRef : ℕ
deriving DecidableEq, Repr

/-- The walk of `Subpaths` at the pointer level.  Command objects live in a
store addressed by index; the input path is a list of store indices; subpath
entries are indices (with `none` for the initial `nil` remembered move).  The
move branch evaluates `&PathCommand{Symbol: command.Symbol, Params:
command.Params}` by appending a fresh cell that copies the symbol and shares
the parameter storage identifier, and remembers the fresh cell's index. -/
def subpathsAllocLoop : List ℕ → List Cell → List (Option ℕ) → Option ℕ →
    List (List (Option ℕ)) → List Cell × List (List (Option ℕ))
  | [], store, path, _, subs =>
    (store, if path.length > 0 then subs ++ [path] else subs)
  | i :: rest, store, path, mrs, subs =>
    let c := store.getD i ⟨"", 0⟩
    if strToLower c.Symbol = "m" then
      subpathsAllocLoop rest (store ++ [⟨c.Symbol, c.paramsRef⟩]) [some i]
        (some store.length)
        (if path.length > 0 then subs ++ [path] else subs)
    else if strToLower c.Symbol = "z" then
      subpathsAllocLoop rest store [] mrs (subs ++ [path])
    else
      subpathsAllocLoop rest store
        ((if path.length = 0 then [mrs] else path) ++ [some i]) mrs subs

/-- `Subpaths` at the pointer level: run the walk on a store of command
objects. -/
def subpathsAlloc (cmds : List ℕ) (store : List Cell) :
    List Cell × List (List (Option ℕ)) :=
  subpathsAllocLoop cmds store [] none []

/-- No entry of a subpath is a close command (a `none` entry is the nil
remembered-move placeholder and has no symbol at all). -/
def subNoClose (sub : List (Option PathCommand)) : Prop :=
  ∀ x ∈ sub, ∀ c : PathCommand, x = some c → strToLower c.Symbol ≠ "z"

/-- A subpath, if non-empty, begins with a move command or with the nil
remembered-move placeholder. -/
def subHeadMove (sub : List (Option PathCommand)) : Prop :=
  ∀ x, sub.head? = some x → x = none ∨ ∃ c, x = some c ∧ strToLower c.Symbol = "m"

/-- C6: parsing `"M 10,20 30,40 Z m 10,20 30,40 Z"` succeeds and yields
exactly `[M(10,20), L(30,40), Z(), m(10,20), l(30,40), Z()]`: in a run of
coordinate pairs after a move operator only the first pair (in input order)
stays a move, each later pair becomes a line command of the same case. -/
theorem C6_implicit_lineto :
    NewPath "M 10,20 30,40 Z m 10,20 30,40 Z" =
      .ok ⟨[⟨"M", [10, 20]⟩, ⟨"L", [30, 40]⟩, ⟨"Z", []⟩,
        ⟨"m", [10, 20]⟩, ⟨"l", [30, 40]⟩, ⟨"Z", []⟩]⟩ := by decide

/-- C9: parsing `"M .2.3 L 30,30 Z"` succeeds with exactly
`[M(0.2,0.3), L(30,30), Z()]` — a dot on an empty operand buffer seeds a
leading `0`, and a second dot inside one operand flushes it and starts a new
operand beginning `0.`, so adjacent decimals split without a separator. -/
theorem C9_adjacent_decimal :
    NewPath "M .2.3 L 30,30 Z" =
      .ok ⟨[⟨"M", [0.2, 0.3]⟩, ⟨"L", [30, 30]⟩, ⟨"Z", []⟩]⟩ := by
  have h : NewPath "M .2.3 L 30,30 Z" =
      .ok ⟨[⟨"M", [mkRat 2 10, mkRat 3 10]⟩, ⟨"L", [30, 30]⟩, ⟨"Z", []⟩]⟩ := by
    decide
  rw [h]
  norm_num [Rat.mkRat_eq_div]

/-- C10: parsing `"M10-20 L30,30Z"` succeeds with exactly
`[M(10,-20), L(30,30), Z()]` — a `-` continues the current operand only right
after the exponent marker `e`, otherwise it flushes the pending operand and
starts a new one. -/
theorem C10_negative_separator :
    NewPath "M10-20 L30,30Z" =
      .ok ⟨[⟨"M", [10, -20]⟩, ⟨"L", [30, 30]⟩, ⟨"Z", []⟩]⟩ := by decide

/-- C1 (evaluation at the failing input): a positive-arity operator that has
accumulated zero operands in the reverse scan is silently dropped instead of
failing with the incorrect-number-of-parameters error — `"M 10 20 L"` parses
to just `[M(10,20)]`, while the non-multiple case `"M 10 20 30 Z"` does fail
with that error for `M`. -/
theorem C1_silent_drop_eval :
    NewPath "M 10 20 30 Z" = .error (.arityErr "M") ∧
    NewPath "M 10 20 L" = .ok ⟨[⟨"M", [10, 20]⟩]⟩ := by decide

/-- C7 (evaluation at the failing input): a non-move first token is indeed
rejected with the start error carrying the raw text (first conjunct), but the
claimed consequence fails: `"M L 1 2"` parses successfully to `[L(1,2)]`,
whose first command is not a move — the leading `M` collected zero operands
and was silently dropped. -/
theorem C7_first_command_eval :
    NewPath "10,20" = .error (.startErr "10,20") ∧
    NewPath "M L 1 2" = .ok ⟨[⟨"L", [1, 2]⟩]⟩ := by decide

/-- C2 (counterexample): on the parse of `"M 10,20 Z Z"`, `Subpaths` returns
an empty second subpath — the close branch closes out the current segment
unconditionally, so a close command processed while the segment is empty
emits an empty path, refuting the non-emptiness part of the claim. -/
theorem C2_counterexample :
    NewPath "M 10,20 Z Z" = .ok ⟨[⟨"M", [10, 20]⟩, ⟨"Z", []⟩, ⟨"Z", []⟩]⟩ ∧
    Path.Subpaths ⟨[⟨"M", [10, 20]⟩, ⟨"Z", []⟩, ⟨"Z", []⟩]⟩ =
      [[some ⟨"M", [10, 20]⟩], []] := by decide

/-- C3 (counterexample): `Equal` never compares parameter-list lengths, so
two commands with the same symbol whose parameter lists differ (one is a
strict prefix of the other) still compare equal — refuting the claimed
same-length necessary condition. -/
theorem C3_counterexample :
    PathCommand.Equal ⟨"h", [1]⟩ ⟨"h", [1, 2]⟩ = some true ∧
    ¬ ([(1 : ℚ)] = [1, 2]) := by decide

/-- C4 (counterexample): totality is not exact at `len(c.Params) ≤
len(o.Params)` — with different symbols `Equal` returns `false` before
touching the parameters, so the call below is total (and does not index past
the end of `o.Params`) even though `c.Params` is strictly longer. -/
theorem C4_counterexample :
    PathCommand.Equal ⟨"m", [1]⟩ ⟨"l", []⟩ = some false ∧
    (PathCommand.Equal ⟨"m", [1]⟩ ⟨"l", []⟩).isSome = true ∧
    ¬ ([(1 : ℚ)].length ≤ ([] : List ℚ).length) := by decide

/-- C5 (counterexample): on the parse of `"M 1 2 Z L 3 4 Z L 5 6"` (cells 0-4
of the store, whose parameter storages are the distinct identifiers 0-4), the
splitter allocates a single copy of the move — cell 5, sharing parameter
storage 0 with the source move cell 0 — and seeds BOTH later subpaths with
that same cell: their heads are both `some 5`, so the synthesized heads are
aliased across subpaths and their parameter storage aliases the source
command's, refuting the fresh-copy-per-subpath claim. -/
theorem C5_counterexample :
    NewPath "M 1 2 Z L 3 4 Z L 5 6" =
      .ok ⟨[⟨"M", [1, 2]⟩, ⟨"Z", []⟩, ⟨"L", [3, 4]⟩, ⟨"Z", []⟩, ⟨"L", [5, 6]⟩]⟩ ∧
    subpathsAlloc [0, 1, 2, 3, 4]
        [⟨"M", 0⟩, ⟨"Z", 1⟩, ⟨"L", 2⟩, ⟨"Z", 3⟩, ⟨"L", 4⟩] =
      ([⟨"M", 0⟩, ⟨"Z", 1⟩, ⟨"L", 2⟩, ⟨"Z", 3⟩, ⟨"L", 4⟩, ⟨"M", 0⟩],
        [[some 0], [some 5, some 2], [some 5, some 4]]) := by decide

theorem eqLoop_eq_some_true (ps : List ℚ) : ∀ qs, eqLoop ps qs = some true ↔
    ps.length ≤ qs.length ∧ qs.take ps.length = ps := by
  induction ps with
  | nil => intro qs; simp [eqLoop]
  | cons p ps ih =>
    intro qs
    cases qs with
    | nil => simp [eqLoop]
    | cons q qs =>
      by_cases hpq : p = q
      · subst hpq
        simp [eqLoop, ih, Nat.succ_le_succ_iff]
      · simp [eqLoop, hpq, Ne.symm hpq]

theorem eqLoop_eq_none (ps : List ℚ) : ∀ qs, eqLoop ps qs = none ↔
    qs.length < ps.length ∧ ps.take qs.length = qs := by
  induction ps with
  | nil => intro qs; simp [eqLoop]
  | cons p ps ih =>
    intro qs
    cases qs with
    | nil => simp [eqLoop]
    | cons q qs =>
      by_cases hpq : p = q
      · subst hpq
        simp [eqLoop, ih, Nat.succ_lt_succ_iff]
      · simp [eqLoop, hpq, Ne.symm hpq]

theorem pathEqLoop_eq_some_true (cs : List PathCommand) :
    ∀ ds, pathEqLoop cs ds = some true ↔
      cs.length ≤ ds.length ∧
        ∀ pr ∈ cs.zip ds, PathCommand.Equal pr.1 pr.2 = some true := by
  induction cs with
  | nil => intro ds; simp [pathEqLoop]
  | cons c cs ih =>
    intro ds
    cases ds with
    | nil => simp [pathEqLoop]
    | cons d ds =>
      cases hcd : PathCommand.Equal c d with
      | none => simp [pathEqLoop, hcd, Nat.succ_le_succ_iff]
      | some b =>
        cases b with
        | true => simp [pathEqLoop, hcd, ih, Nat.succ_le_succ_iff]
        | false => simp [pathEqLoop, hcd, Nat.succ_le_succ_iff]

/-- C3 (amended): command equality is prefix-based, with no length check —
`Equal c o` returns true iff the symbols are equal and `c.Params` is a
pointwise prefix of `o.Params` (also when `o.Params` strictly extends it);
path equality is true iff the command counts are equal and corresponding
commands are pairwise `Equal`-true in order. -/
theorem C3_equal_spec :
    (∀ c o : PathCommand, PathCommand.Equal c o = some true ↔
      c.Symbol = o.Symbol ∧ c.Params.length ≤ o.Params.length ∧
        o.Params.take c.Params.length = c.Params) ∧
    (∀ p q : Path, Path.Equal p q = some true ↔
      p.Commands.length = q.Commands.length ∧
        ∀ pr ∈ p.Commands.zip q.Commands, PathCommand.Equal pr.1 pr.2 = some true) := by
  constructor
  · intro c o
    by_cases hs : c.Symbol = o.Symbol
    · simp [PathCommand.Equal, hs, eqLoop_eq_some_true]
    · simp [PathCommand.Equal, hs]
  · intro p q
    by_cases hl : p.Commands.length = q.Commands.length
    · simp [Path.Equal, hl, pathEqLoop_eq_some_true]
    · simp [Path.Equal, hl]

theorem C3_equal_spec_witness :
    PathCommand.Equal ⟨"m", [1, 2]⟩ ⟨"m", [1, 2]⟩ = some true :=
  (C3_equal_spec.1 ⟨"m", [1, 2]⟩ ⟨"m", [1, 2]⟩).mpr (by decide)

/-- C4 (amended): `len(c.Params) ≤ len(o.Params)` is sufficient for totality
of `Equal c o`; the out-of-range access happens exactly when the symbols are
equal, `c.Params` is strictly longer, and `o.Params` is a pointwise prefix of
`c.Params`; and whenever the symbols are equal and `c.Params` is a pointwise
prefix of `o.Params`, `Equal c o` returns true even when `o.Params` is
strictly longer — so `Equal` is not symmetric. -/
theorem C4_equal_partiality :
    (∀ c o : PathCommand, c.Params.length ≤ o.Params.length →
      (PathCommand.Equal c o).isSome = true) ∧
    (∀ c o : PathCommand, PathCommand.Equal c o = none ↔
      c.Symbol = o.Symbol ∧ o.Params.length < c.Params.length ∧
        c.Params.take o.Params.length = o.Params) ∧
    (∀ c o : PathCommand, c.Symbol = o.Symbol →
      o.Params.take c.Params.length = c.Params →
      PathCommand.Equal c o = some true) := by
  have hnone : ∀ c o : PathCommand, PathCommand.Equal c o = none ↔
      c.Symbol = o.Symbol ∧ o.Params.length < c.Params.length ∧
        c.Params.take o.Params.length = o.Params := by
    intro c o
    by_cases hs : c.Symbol = o.Symbol
    · simp [PathCommand.Equal, hs, eqLoop_eq_none]
    · simp [PathCommand.Equal, hs]
  refine ⟨?_, hnone, ?_⟩
  · intro c o h
    rw [Option.isSome_iff_ne_none]
    intro hn
    rcases (hnone c o).mp hn with ⟨_, hlt, _⟩
    exact absurd h (Nat.not_le_of_lt hlt)
  · intro c o hs hp
    have hle : c.Params.length ≤ o.Params.length := by
      have hlen := congrArg List.length hp
      simp only [List.length_take] at hlen
      omega
    simp only [PathCommand.Equal, hs, if_pos]
    exact (eqLoop_eq_some_true c.Params o.Params).mpr ⟨hle, hp⟩

theorem C4_equal_partiality_witness :
    (PathCommand.Equal ⟨"h", [1]⟩ ⟨"h", [1, 2]⟩).isSome = true :=
  C4_equal_partiality.1 ⟨"h", [1]⟩ ⟨"h", [1, 2]⟩ (by decide)

theorem head?_append_left {α : Type} (l m : List α) (h : l ≠ []) :
    (l ++ m).head? = l.head? := by
  cases l with
  | nil => exact absurd rfl h
  | cons a l => rfl

theorem closeOutGood (path : List (Option PathCommand))
    (subs : List (List (Option PathCommand)))
    (hnc : subNoClose path) (hhm : subHeadMove path)
    (hsubs : ∀ sub ∈ subs, subNoClose sub ∧ subHeadMove sub) :
    ∀ sub ∈ (if path.length > 0 then subs ++ [path] else subs),
      subNoClose sub ∧ subHeadMove sub := by
  split
  · intro sub hsub
    rcases List.mem_append.mp hsub with h | h
    · exact hsubs sub h
    · rw [List.mem_singleton.mp h]
      exact ⟨hnc, hhm⟩
  · exact hsubs

theorem subpathsLoop_good :
    ∀ (cmds : List PathCommand) (path : List (Option PathCommand))
      (mrs : Option PathCommand) (subs : List (List (Option PathCommand))),
      subNoClose path → subHeadMove path →
      (mrs = none ∨ ∃ c, mrs = some c ∧ strToLower c.Symbol = "m") →
      (∀ sub ∈ subs, subNoClose sub ∧ subHeadMove sub) →
      ∀ sub ∈ subpathsLoop cmds path mrs subs, subNoClose sub ∧ subHeadMove sub := by
  intro cmds
  induction cmds with
  | nil =>
    intro path mrs subs hnc hhm _ hsubs
    simp only [subpathsLoop]
    exact closeOutGood path subs hnc hhm hsubs
  | cons c rest ih =>
    intro path mrs subs hnc hhm hmrs hsubs
    simp only [subpathsLoop]
    by_cases hm : strToLower c.Symbol = "m"
    · rw [if_pos hm]
      apply ih
      · intro x hx c2 hc2
        rcases List.mem_singleton.mp hx with rfl
        rcases Option.some.inj hc2 with rfl
        rw [hm]
        decide
      · intro x hx
        rcases Option.some.inj hx with rfl
        exact Or.inr ⟨c, rfl, hm⟩
      · exact Or.inr ⟨⟨c.Symbol, c.Params⟩, rfl, hm⟩
      · exact closeOutGood path subs hnc hhm hsubs
    · rw [if_neg hm]
      by_cases hz : strToLower c.Symbol = "z"
      · rw [if_pos hz]
        apply ih
        · intro x hx
          exact absurd hx (List.not_mem_nil x)
        · intro x hx
          exact absurd hx (by simp)
        · exact hmrs
        · intro sub hsub
          rcases List.mem_append.mp hsub with h | h
          · exact hsubs sub h
          · rw [List.mem_singleton.mp h]
            exact ⟨hnc, hhm⟩
      · rw [if_neg hz]
        apply ih
        · intro x hx c2 hc2
          rcases List.mem_append.mp hx with h | h
          · by_cases hp : path.length = 0
            · rw [if_pos hp] at h
              rcases List.mem_singleton.mp h with rfl
              rcases hmrs with hn | ⟨c3, hc3, hc3m⟩
              · rw [hn] at hc2
                exact absurd hc2 (by simp)
              · rw [hc3] at hc2
                rcases Option.some.inj hc2 with rfl
                rw [hc3m]
                decide
            · rw [if_neg hp] at h
              exact hnc x h c2 hc2
          · rcases List.mem_singleton.mp h with rfl
            rcases Option.some.inj hc2 with rfl
            exact hz
        · intro x hx
          by_cases hp : path.length = 0
          · rw [if_pos hp] at hx
            rw [head?_append_left [mrs] [some c] (by simp)] at hx
            rcases Option.some.inj hx with rfl
            exact hmrs
          · rw [if_neg hp] at hx
            have hpne : path ≠ [] := by
              intro hh
              exact hp (by rw [hh]; rfl)
            rw [head?_append_left path [some c] hpne] at hx
            exact hhm x hx
        · exact hmrs
        · exact hsubs

/-- C2 (amended): every subpath returned by `Subpaths` contains no close
command, and every non-empty subpath begins either with a command whose
case-insensitive symbol is `m` or with the nil remembered-move placeholder;
subpaths themselves may be empty (see the counterexample with consecutive
close commands). -/
theorem C2_subpath_inv (p : Path) :
    ∀ sub ∈ p.Subpaths, subNoClose sub ∧ subHeadMove sub :=
  subpathsLoop_good p.Commands [] none []
    (by intro x hx; exact absurd hx (List.not_mem_nil x))
    (by intro x hx; exact absurd hx (by simp))
    (Or.inl rfl)
    (by intro sub hsub; exact absurd hsub (List.not_mem_nil sub))

theorem C2_subpath_inv_witness :
    subNoClose [some ⟨"M", [10, 20]⟩] ∧ subHeadMove [some ⟨"M", [10, 20]⟩] :=
  C2_subpath_inv ⟨[⟨"M", [10, 20]⟩, ⟨"Z", []⟩]⟩ [some ⟨"M", [10, 20]⟩] (by decide)

theorem subpathsAllocLoop_store :
    ∀ (cmds : List ℕ) (store : List Cell) (path : List (Option ℕ))
      (mrs : Option ℕ) (subs : List (List (Option ℕ))),
      (∀ i ∈ cmds, i < store.length) →
      store.length ≤ (subpathsAllocLoop cmds store path mrs subs).1.length ∧
      (∀ k, k < store.length →
        (subpathsAllocLoop cmds store path mrs subs).1.getD k ⟨"", 0⟩ =
          store.getD k ⟨"", 0⟩) ∧
      (∀ j, store.length ≤ j →
        j < (subpathsAllocLoop cmds store path mrs subs).1.length →
        ∃ i, i < store.length ∧
          (subpathsAllocLoop cmds store path mrs subs).1.getD j ⟨"", 0⟩ =
            ⟨(store.getD i ⟨"", 0⟩).Symbol, (store.getD i ⟨"", 0⟩).paramsRef⟩ ∧
          strToLower (store.getD i ⟨"", 0⟩).Symbol = "m") := by
  intro cmds
  induction cmds with
  | nil =>
    intro store path mrs subs _
    refine ⟨le_refl _, fun k _ => rfl, fun j hj hj2 => absurd hj2 ?_⟩
    exact Nat.not_lt_of_le hj
  | cons i0 rest ih =>
    intro store path mrs subs hbound
    have hi0 : i0 < store.length := hbound i0 (List.mem_cons_self i0 rest)
    have hrest : ∀ i ∈ rest, i < store.length := fun i hi =>
      hbound i (List.mem_cons_of_mem i0 hi)
    simp only [subpathsAllocLoop]
    by_cases hm : strToLower (store.getD i0 ⟨"", 0⟩).Symbol = "m"
    · rw [if_pos hm]
      have hlen2 :
          store.length ≤
            (store ++ [(⟨(store.getD i0 ⟨"", 0⟩).Symbol,
              (store.getD i0 ⟨"", 0⟩).paramsRef⟩ : Cell)]).length := by
        simp
      obtain ⟨hle, hpres, hcopy⟩ :=
        ih (store ++ [⟨(store.getD i0 ⟨"", 0⟩).Symbol,
            (store.getD i0 ⟨"", 0⟩).paramsRef⟩])
          [some i0] (some store.length)
          (if path.length > 0 then subs ++ [path] else subs)
          (fun i hi => lt_of_lt_of_le (hrest i hi) hlen2)
      refine ⟨le_trans hlen2 hle, ?_, ?_⟩
      · intro k hk
        rw [hpres k (lt_of_lt_of_le hk hlen2)]
        exact List.getD_append _ _ _ _ hk
      · intro j hj hjlen
        by_cases hj2 :
            j < (store ++ [(⟨(store.getD i0 ⟨"", 0⟩).Symbol,
              (store.getD i0 ⟨"", 0⟩).paramsRef⟩ : Cell)]).length
        · have hjeq : j = store.length := by
            simp only [List.length_append, List.length_singleton] at hj2
            omega
          rw [hpres j hj2, hjeq]
          refine ⟨i0, hi0, ?_, hm⟩
          rw [List.getD_append_right _ _ _ _ (le_refl _)]
          simp
        · obtain ⟨i1, hi1, hcell, hi1m⟩ := hcopy j (Nat.le_of_not_lt hj2) hjlen
          by_cases hi1lt : i1 < store.length
          · rw [List.getD_append _ _ _ _ hi1lt] at hcell hi1m
            exact ⟨i1, hi1lt, hcell, hi1m⟩
          · have hi1eq : i1 = store.length := by
              simp only [List.length_append, List.length_singleton] at hi1
              omega
            rw [hi1eq, List.getD_append_right _ _ _ _ (le_refl _)] at hcell
            simp only [Nat.sub_self, List.getD_cons_zero] at hcell
            exact ⟨i0, hi0, hcell, hm⟩
    · rw [if_neg hm]
      by_cases hz : strToLower (store.getD i0 ⟨"", 0⟩).Symbol = "z"
      · rw [if_pos hz]
        exact ih store [] mrs (subs ++ [path]) hrest
      · rw [if_neg hz]
        exact ih store _ mrs subs hrest

/-- C5 (amended): at the pointer level, the splitter only ever allocates
shallow copies of move commands of the source store — each allocated cell
(index at or past the initial store length) carries the symbol and the SAME
parameter-storage identifier as some source move cell — and the source cells
themselves are left intact (the final store extends the initial one
unchanged).  Together with the counterexample, which shows both later
subpaths seeded with the same allocated cell, this replaces the claimed
fresh-copy-per-subpath discipline: one shallow copy per move, aliased across
the subpaths it seeds, its parameter storage shared with the source
command. -/
theorem C5_alloc_spec (cmds : List ℕ) (store : List Cell)
    (hbound : ∀ i ∈ cmds, i < store.length) :
    store.length ≤ (subpathsAlloc cmds store).1.length ∧
    (∀ k, k < store.length →
      (subpathsAlloc cmds store).1.getD k ⟨"", 0⟩ = store.getD k ⟨"", 0⟩) ∧
    (∀ j, store.length ≤ j → j < (subpathsAlloc cmds store).1.length →
      ∃ i, i < store.length ∧
        (subpathsAlloc cmds store).1.getD j ⟨"", 0⟩ =
          ⟨(store.getD i ⟨"", 0⟩).Symbol, (store.getD i ⟨"", 0⟩).paramsRef⟩ ∧
        strToLower (store.getD i ⟨"", 0⟩).Symbol = "m") :=
  subpathsAllocLoop_store cmds store [] none [] hbound

theorem C5_alloc_spec_witness :
    (subpathsAlloc [0] [⟨"M", 7⟩]).1.getD 0 ⟨"", 0⟩ =
      [(⟨"M", 7⟩ : Cell)].getD 0 ⟨"", 0⟩ :=
  (C5_alloc_spec [0] [⟨"M", 7⟩] (by decide)).2.1 0 (by decide)

theorem assembleGroups_arity :
    ∀ (value : String) (paramCount k : ℕ) (operands : List ℚ)
      (cmds : List PathCommand),
      commandParams (strToLower value) = some paramCount →
      operands.length = k * paramCount →
      (∀ c ∈ cmds, commandParams (strToLower c.Symbol) = some c.Params.length) →
      ∀ c ∈ (assembleGroups value paramCount k operands cmds).2,
        commandParams (strToLower c.Symbol) = some c.Params.length := by
  intro value paramCount k
  induction k with
  | zero =>
    intro operands cmds _ _ hacc
    exact hacc
  | succ k ihk =>
    intro operands cmds hlook hlen hacc
    simp only [assembleGroups]
    apply ihk
    · exact hlook
    · simp only [List.length_drop]
      rw [hlen, Nat.succ_mul]
      omega
    · intro c hc
      rcases List.mem_cons.mp hc with hceq | hcmem
      · subst hceq
        have hmin : (operands.take paramCount).reverse.length = paramCount := by
          simp only [List.length_reverse, List.length_take]
          rw [hlen, Nat.succ_mul]
          omega
        simp only [hmin]
        by_cases h1 : value = "m" ∧ k ≠ 0
        · rw [if_pos h1]
          rw [h1.1] at hlook
          have h2 : commandParams (strToLower "m") = some 2 := by decide
          rw [h2] at hlook
          rw [← Option.some.inj hlook]
          decide
        · rw [if_neg h1]
          by_cases h2 : value = "M" ∧ k ≠ 0
          · rw [if_pos h2]
            rw [h2.1] at hlook
            have h3 : commandParams (strToLower "M") = some 2 := by decide
            rw [h3] at hlook
            rw [← Option.some.inj hlook]
            decide
          · rw [if_neg h2]
            exact hlook
      · exact hacc c hcmem

theorem commandsLoop_arity :
    ∀ (ts : List Token) (operands : List ℚ) (cmds res : List PathCommand),
      (∀ c ∈ cmds, commandParams (strToLower c.Symbol) = some c.Params.length) →
      commandsLoop ts operands cmds = .ok res →
      ∀ c ∈ res, commandParams (strToLower c.Symbol) = some c.Params.length := by
  intro ts
  induction ts with
  | nil =>
    intro operands cmds res hacc heq
    simp only [commandsLoop] at heq
    rw [← Except.ok.inj heq]
    exact hacc
  | cons t rest ih =>
    intro operands cmds res hacc heq
    simp only [commandsLoop] at heq
    split at heq
    · split at heq
      · exact absurd heq (by simp)
      · exact ih _ _ res hacc heq
    · split at heq
      · exact absurd heq (by simp)
      · rename_i pc hcp
        split at heq
        · rename_i h0
          apply ih _ _ res ?_ heq
          intro c hc
          rcases List.mem_cons.mp hc with hceq | hcmem
          · subst hceq
            show commandParams (strToLower t.value) = some ([] : List ℚ).length
            rw [hcp, h0.1]
            rfl
          · exact hacc c hcmem
        · split at heq
          · exact absurd heq (by simp)
          · rename_i h0 h1
            push_neg at h1
            apply ih _ _ res ?_ heq
            apply assembleGroups_arity t.value pc (operands.length / pc)
              operands cmds hcp ?_ hacc
            exact (Nat.div_mul_cancel (Nat.dvd_of_mod_eq_zero h1.2)).symm

/-- C8: for every successfully parsed path, every command's parameter count
equals the arity that the static table `commandParams` declares for its
case-insensitive symbol (m, l, t: 2; z: 0; h, v: 1; s, q: 4; c: 6; a: 7). -/
theorem C8_arity_invariant (raw : String) (cmds : List PathCommand)
    (h : commands raw = .ok cmds) :
    ∀ c ∈ cmds, commandParams (strToLower c.Symbol) = some c.Params.length := by
  have hempty : ∀ c ∈ ([] : List PathCommand),
      commandParams (strToLower c.Symbol) = some c.Params.length := by
    intro c hc
    exact absurd hc (List.not_mem_nil c)
  unfold commands at h
  split at h
  · exact absurd h (by simp)
  · split at h
    · exact commandsLoop_arity [] [] [] cmds hempty h
    · split at h
      · exact absurd h (by simp)
      · exact commandsLoop_arity _ [] [] cmds hempty h

theorem C8_arity_invariant_witness :
    commandParams (strToLower (PathCommand.mk "M" [10, 20]).Symbol) =
      some (PathCommand.mk "M" [10, 20]).Params.length :=
  C8_arity_invariant "M 10,20 L 30,30 Z"
    [⟨"M", [10, 20]⟩, ⟨"L", [30, 30]⟩, ⟨"Z", []⟩] (by decide)
    ⟨"M", [10, 20]⟩ (by decide)

end Svg
